import Mathlib

/-!
Verification development for the toolkit repository: a shallow embedding of
the phone-number extractor, the channel-setup parser and handler step, the
persistent store operations (users, channels, sessions, frozen cache) and the
per-user state manager, together with theorems settling the specification
claims.

Conventions of the embedding:
* Text is `List Char`.  Python's `\d` and `\s` are modelled over their ASCII
  ranges (`Char.isDigit`, and the ASCII whitespace set), which is exact for
  all inputs the modelled flows produce.
* `re.findall` for each of the three extractor patterns is modelled by a
  left-to-right scanner that, at each position, attempts the pattern with the
  engine's greedy/backtracking choice order, emits the match, and resumes
  scanning immediately after it; a skip counter keeps the recursion
  structural.
* SQLite tables are modelled as association maps; `INSERT OR REPLACE`
  replaces a whole row, restoring column defaults of columns absent from the
  insert list, exactly as SQLite does.
* Timestamps are seconds (`Nat`); `CURRENT_TIMESTAMP` is an explicit `now`
  parameter.
-/

namespace Toolkit

/-! ## Character classes -/

/-- The character class `[-\s]` used by the extractor's cleaning substitution
(`re.sub(r'[-\s]', '', match)`) and by the grouped pattern's separator. -/
def isSepChar (c : Char) : Bool :=
  c = '-' || c = ' ' || c = '\t' || c = '\n' || c = '\r' || c = '\x0B' || c = '\x0C'

/-- Python `\s` (ASCII range), also the set stripped by `str.strip()`. -/
def isPyWs (c : Char) : Bool :=
  c = ' ' || c = '\t' || c = '\n' || c = '\r' || c = '\x0B' || c = '\x0C'

/-- Characters of the class `[a-zA-Z0-9_]` from the channel username regex. -/
def isWordChar (c : Char) : Bool :=
  (('a' ≤ c && c ≤ 'z') || ('A' ≤ c && c ≤ 'Z') || ('0' ≤ c && c ≤ '9') || c = '_')

/-- Length of the maximal digit prefix of a character list. -/
def digitRun : List Char → Nat
  | [] => 0
  | c :: rest => if c.isDigit then digitRun rest + 1 else 0

/-! ## The three `re.findall` scanners of `_extract_phone_numbers`

Pattern 1: `\+\d{10,15}`; pattern 2: `\d{10,15}`; pattern 3:
`\d{1,4}[-\s]\d{3,4}[-\s]\d{3,4}[-\s]\d{3,4}`.  Each scanner walks the text
left to right; the `Nat` argument is the number of characters still covered
by the previously emitted match (the engine resumes scanning at the first
position after a match). -/

/-- Scanner for `re.findall(r'\+\d{10,15}', text)`. -/
def fa1Go : List Char → Nat → List (List Char)
  | [], _ => []
  | _ :: rest, s + 1 => fa1Go rest s
  | c :: rest, 0 =>
    if c = '+' then
      let r := digitRun rest
      if 10 ≤ r then (c :: rest.take (min r 15)) :: fa1Go rest (min r 15)
      else fa1Go rest 0
    else fa1Go rest 0

def fa1 (t : List Char) : List (List Char) := fa1Go t 0

/-- Scanner for `re.findall(r'\d{10,15}', text)`. -/
def fa2Go : List Char → Nat → List (List Char)
  | [], _ => []
  | _ :: rest, s + 1 => fa2Go rest s
  | c :: rest, 0 =>
    if c.isDigit then
      let r := digitRun rest + 1
      if 10 ≤ r then (c :: rest.take (min r 15 - 1)) :: fa2Go rest (min r 15 - 1)
      else fa2Go rest 0
    else fa2Go rest 0

def fa2 (t : List Char) : List (List Char) := fa2Go t 0

/-- Consume exactly `n` digits, returning the remainder. -/
def chompDigits : Nat → List Char → Option (List Char)
  | 0, l => some l
  | _ + 1, [] => none
  | n + 1, c :: l => if c.isDigit then chompDigits n l else none

/-- Consume exactly one `[-\s]` separator, returning the remainder. -/
def chompSep : List Char → Option (List Char)
  | [] => none
  | c :: l => if isSepChar c then some l else none

/-- Try the grouped pattern with fixed cluster sizes `(a, b, c, d)`; on
success return the match length `a + 1 + b + 1 + c + 1 + d`. -/
def matchGrouped (a b c d : Nat) (l : List Char) : Option Nat :=
  (chompDigits a l).bind fun l1 =>
    (chompSep l1).bind fun l2 =>
      (chompDigits b l2).bind fun l3 =>
        (chompSep l3).bind fun l4 =>
          (chompDigits c l4).bind fun l5 =>
            (chompSep l5).bind fun l6 =>
              (chompDigits d l6).map fun _ => a + 1 + b + 1 + c + 1 + d

/-- The engine's backtracking order for `\d{1,4}[-\s]\d{3,4}[-\s]\d{3,4}[-\s]\d{3,4}`:
each greedy quantifier tries its larger count first, the rightmost
backtracking first, i.e. lexicographic over descending counts. -/
def groupTuples : List (Nat × Nat × Nat × Nat) :=
  [4, 3, 2, 1].flatMap fun a =>
    [4, 3].flatMap fun b =>
      [4, 3].flatMap fun c =>
        [4, 3].map fun d => (a, b, c, d)

/-- First grouped-pattern match at the current position, as a match length. -/
def tryGrouped (l : List Char) : Option Nat :=
  groupTuples.findSome? fun t => matchGrouped t.1 t.2.1 t.2.2.1 t.2.2.2 l

/-- Scanner for `re.findall(r'\d{1,4}[-\s]\d{3,4}[-\s]\d{3,4}[-\s]\d{3,4}', text)`. -/
def fa3Go : List Char → Nat → List (List Char)
  | [], _ => []
  | _ :: rest, s + 1 => fa3Go rest s
  | c :: rest, 0 =>
    match tryGrouped (c :: rest) with
    | some n => ((c :: rest).take n) :: fa3Go rest (n - 1)
    | none => fa3Go rest 0

def fa3 (t : List Char) : List (List Char) := fa3Go t 0

/-! ## Cleaning, filtering, dedup -/

/-- `re.sub(r'[-\s]', '', match)`. -/
def cleanNum (l : List Char) : List Char := l.filter (fun c => !isSepChar c)

/-- Per-pattern accumulation: clean every match, keep those of cleaned length
between 10 and 15 (`if 10 <= len(cleaned) <= 15`). -/
def accumFrom (ms : List (List Char)) : List (List Char) :=
  (ms.map cleanNum).filter (fun x => decide (10 ≤ x.length) && decide (x.length ≤ 15))

/-- The pre-dedup accumulation across the three pattern classes in order. -/
def accumNums (t : List Char) : List (List Char) :=
  accumFrom (fa1 t) ++ accumFrom (fa2 t) ++ accumFrom (fa3 t)

/-- The `seen`-set dedup loop: keep the first occurrence of each value. -/
def dedupSeen {α : Type} [DecidableEq α] (seen : List α) : List α → List α
  | [] => []
  | x :: xs => if x ∈ seen then dedupSeen seen xs else x :: dedupSeen (x :: seen) xs

/-- `_extract_phone_numbers` over `List Char`. -/
def extractPhoneNumbers (t : List Char) : List (List Char) :=
  dedupSeen [] (accumNums t)

/-- `_extract_phone_numbers` over `String`. -/
def extractNumbersStr (s : String) : List String :=
  (extractPhoneNumbers s.data).map String.mk

/-! ## Persistent store: users table

`users(user_id INTEGER PRIMARY KEY, username TEXT, first_name TEXT,
is_premium BOOLEAN DEFAULT 0, registered_at .., last_active ..)`.  The two
timestamp columns are never read by any modelled operation and are omitted
from the row. -/

structure UserRow where
  username : Option String
  firstName : Option String
  isPremium : Bool
deriving DecidableEq

def Users : Type := Int → Option UserRow

def emptyUsers : Users := fun _ => none

/-- `register_user`: `INSERT OR REPLACE INTO users (user_id, username,
first_name) VALUES (?, ?, ?)` — the whole row is replaced, so `is_premium`
takes its column default `0`.  The `except` branch (storage failure) is
outside the model, so the returned success flag is `true`. -/
def registerUser (db : Users) (uid : Int) (username firstName : Option String) :
    Users × Bool :=
  (fun i => if i = uid then some ⟨username, firstName, false⟩ else db i, true)

/-- `is_user_registered`. -/
def isUserRegistered (db : Users) (uid : Int) : Bool := (db uid).isSome

/-- `set_premium_status`: `UPDATE users SET is_premium = ? WHERE user_id = ?`;
updates the row when present, affects nothing otherwise, returns `True`. -/
def setPremiumStatus (db : Users) (uid : Int) (b : Bool) : Users × Bool :=
  (fun i => if i = uid then (db i).map (fun r => { r with isPremium := b }) else db i, true)

/-- The premium flag as stored: `SELECT is_premium FROM users WHERE user_id = ?`,
with a missing row read as not premium. -/
def storedPremiumFlag (db : Users) (uid : Int) : Bool :=
  match db uid with
  | some r => r.isPremium
  | none => false

/-- `is_premium_user`: the admin allowlist (`Config.is_admin`, i.e.
`user_id in self.admin_ids`) is consulted first; only then the store. -/
def isPremiumUser (adminIds : List Int) (db : Users) (uid : Int) : Bool :=
  if uid ∈ adminIds then true
  else storedPremiumFlag db uid

/-! ## Persistent store: channels table

`channels(id INTEGER PRIMARY KEY AUTOINCREMENT, user_id, channel_id TEXT,
channel_name TEXT, is_active BOOLEAN DEFAULT 1, created_at ..)`. -/

structure ChannelRow where
  rowId : Nat
  userId : Int
  channelId : List Char
  channelName : List Char
  isActive : Bool
deriving DecidableEq

structure ChanStore where
  rows : List ChannelRow
  nextId : Nat
deriving DecidableEq

def emptyChans : ChanStore := ⟨[], 1⟩

/-- `add_channel`: plain `INSERT` with autoincrement id, `is_active`
defaulting to `1`.  The storage-failure branch is outside the model. -/
def addChannel (s : ChanStore) (uid : Int) (cid cname : List Char) : ChanStore × Bool :=
  (⟨s.rows ++ [⟨s.nextId, uid, cid, cname, true⟩], s.nextId + 1⟩, true)

/-- `get_user_channels`: `SELECT .. WHERE user_id = ? AND is_active = 1`,
rows in insertion (rowid) order. -/
def getUserChannels (s : ChanStore) (uid : Int) : List ChannelRow :=
  s.rows.filter (fun ch => ch.userId = uid && ch.isActive)

/-- `remove_channel`: `UPDATE channels SET is_active = 0 WHERE id = ? AND
user_id = ?`. -/
def removeChannel (s : ChanStore) (uid : Int) (chanDbId : Nat) : ChanStore × Bool :=
  (⟨s.rows.map (fun ch =>
      if ch.rowId = chanDbId && ch.userId = uid then { ch with isActive := false } else ch),
    s.nextId⟩, true)

/-! ## Persistent store: sessions table

`user_sessions(user_id INTEGER PRIMARY KEY, session_data BLOB, phone_number
TEXT, uploaded_at .., is_active BOOLEAN DEFAULT 1)`. -/

structure SessionRow where
  sessionData : List Nat
  phoneNumber : Option String
  isActive : Bool
deriving DecidableEq

def Sessions : Type := Int → Option SessionRow

def emptySessions : Sessions := fun _ => none

/-- `store_session`: `INSERT OR REPLACE INTO user_sessions (user_id,
session_data, phone_number) VALUES (?, ?, ?)` — whole-row replace, so
`is_active` takes its default `1`. -/
def storeSession (db : Sessions) (uid : Int) (data : List Nat) (phone : Option String) :
    Sessions × Bool :=
  (fun i => if i = uid then some ⟨data, phone, true⟩ else db i, true)

/-- `get_session`: `SELECT session_data FROM user_sessions WHERE user_id = ?
AND is_active = 1`. -/
def getSession (db : Sessions) (uid : Int) : Option (List Nat) :=
  match db uid with
  | some r => if r.isActive then some r.sessionData else none
  | none => none

/-- `has_session`: `get_session(..) is not None`. -/
def hasSession (db : Sessions) (uid : Int) : Bool := (getSession db uid).isSome

/-- `remove_user_session`: `UPDATE user_sessions SET is_active = 0 WHERE
user_id = ?` — a soft delete, the row (and blob) remains. -/
def removeUserSession (db : Sessions) (uid : Int) : Sessions × Bool :=
  (fun i => if i = uid then (db i).map (fun r => { r with isActive := false }) else db i, true)

/-! ## Persistent store: frozen cache

`frozen_cache(id .., channel_id TEXT, phone_number TEXT, is_frozen BOOLEAN,
checked_at TIMESTAMP DEFAULT CURRENT_TIMESTAMP, UNIQUE(channel_id,
phone_number))`; keyed by the unique pair. -/

structure CacheRow where
  isFrozen : Bool
  checkedAt : Nat
deriving DecidableEq

def FrozenCache : Type := String × String → Option CacheRow

def emptyCache : FrozenCache := fun _ => none

/-- `cache_frozen_result`: `INSERT OR REPLACE` on the unique pair; the
replaced row's `checked_at` takes its default `CURRENT_TIMESTAMP` (= `now`). -/
def cacheFrozenResult (c : FrozenCache) (channelId phone : String) (b : Bool) (now : Nat) :
    FrozenCache :=
  fun k => if k = (channelId, phone) then some ⟨b, now⟩ else c k

/-- `get_cached_result`: `SELECT is_frozen .. WHERE channel_id = ? AND
phone_number = ? AND datetime(checked_at) > datetime('now', '-1 hour')`;
`None` when no row satisfies the query. -/
def getCachedResult (c : FrozenCache) (channelId phone : String) (now : Nat) : Option Bool :=
  match c (channelId, phone) with
  | some r => if now < r.checkedAt + 3600 then some r.isFrozen else none
  | none => none

/-! ## State manager

`StateManager` holds `user_states : Dict[int, UserState]` and
`user_contexts : Dict[int, Dict[str, Any]]`.  Context values are a type
parameter `V` (they are `Any` in the source). -/

inductive UserState where
  | idle
  | channelSetup
  | channelEdit
  | sessionUpload
  | withdrawProcessing
  | adminCommand
  | fileUpload
deriving DecidableEq

structure StateManager (V : Type) where
  userStates : Int → Option UserState
  userContexts : Int → Option (String → Option V)

def emptySM (V : Type) : StateManager V := ⟨fun _ => none, fun _ => none⟩

/-- Merge a list of `(key, value)` pairs into a context bag (`dict.update`). -/
def bagUpdate {V : Type} (bag : String → Option V) : List (String × V) → (String → Option V)
  | [] => bag
  | (k, v) :: rest => bagUpdate (fun s => if s = k then some v else bag s) rest

/-- `set_state(user_id, state, context=None)`: store the state; when a
context dict is given and non-empty (`if context:` — an empty dict is
falsy), merge it into the user's bag, creating the bag if absent. -/
def setState {V : Type} (sm : StateManager V) (uid : Int) (st : UserState)
    (ctx : Option (List (String × V))) : StateManager V :=
  { userStates := fun i => if i = uid then some st else sm.userStates i
    userContexts :=
      match ctx with
      | none => sm.userContexts
      | some [] => sm.userContexts
      | some l =>
        fun i =>
          if i = uid then
            some (bagUpdate (match sm.userContexts uid with
                             | some bag => bag
                             | none => fun _ => none) l)
          else sm.userContexts i }

/-- `get_state`: defaults to `IDLE` when the user has no entry. -/
def getState {V : Type} (sm : StateManager V) (uid : Int) : UserState :=
  match sm.userStates uid with
  | some st => st
  | none => UserState.idle

/-- `clear_state`: pops both the state and the whole context entry. -/
def clearState {V : Type} (sm : StateManager V) (uid : Int) : StateManager V :=
  { userStates := fun i => if i = uid then none else sm.userStates i
    userContexts := fun i => if i = uid then none else sm.userContexts i }

/-- `get_context(user_id)` with no key: the whole bag, `None` if absent. -/
def getContextBag {V : Type} (sm : StateManager V) (uid : Int) : Option (String → Option V) :=
  sm.userContexts uid

/-- `get_context(user_id, key)`: `None` if the user has no bag, else
`bag.get(key)`. -/
def getContextVal {V : Type} (sm : StateManager V) (uid : Int) (key : String) : Option V :=
  match sm.userContexts uid with
  | some bag => bag key
  | none => none

/-- `set_context`: creates the bag if needed, then stores the pair. -/
def setContext {V : Type} (sm : StateManager V) (uid : Int) (key : String) (v : V) :
    StateManager V :=
  { userStates := sm.userStates
    userContexts := fun i =>
      if i = uid then
        some (fun s => if s = key then some v else
          match sm.userContexts uid with
          | some bag => bag s
          | none => none)
      else sm.userContexts i }

/-- `clear_context(user_id, key=None)`: no-op when the user has no bag;
with a key, pops that key; without, empties the bag in place (the user's
entry remains, holding an empty dict). -/
def clearContext {V : Type} (sm : StateManager V) (uid : Int) (key : Option String) :
    StateManager V :=
  match sm.userContexts uid with
  | none => sm
  | some bag =>
    { userStates := sm.userStates
      userContexts := fun i =>
        if i = uid then
          some (match key with
                | some k => fun s => if s = k then none else bag s
                | none => fun _ => none)
        else sm.userContexts i }

/-- One state-manager call, tagged with its target user. -/
inductive SMOp (V : Type) where
  | setSt (st : UserState) (ctx : Option (List (String × V)))
  | setCtx (key : String) (v : V)
  | clearSt
  | clearCtx (key : Option String)

def applyOp {V : Type} (sm : StateManager V) (uid : Int) : SMOp V → StateManager V
  | SMOp.setSt st ctx => setState sm uid st ctx
  | SMOp.setCtx k v => setContext sm uid k v
  | SMOp.clearSt => clearState sm uid
  | SMOp.clearCtx k => clearContext sm uid k

def applyOps {V : Type} (sm : StateManager V) (uid : Int) (ops : List (SMOp V)) :
    StateManager V :=
  ops.foldl (fun s op => applyOp s uid op) sm

/-! ## Channel-setup parsing (`_handle_channel_setup`)

The two anchored regexes are modelled by explicit backtracking matchers:
each greedy quantifier enumerates its candidate lengths longest-first and
`findSome?` realises the engine's backtracking order. -/

/-- `str.strip()` over the ASCII whitespace set. -/
def pyStrip (l : List Char) : List Char :=
  ((l.dropWhile isPyWs).reverse.dropWhile isPyWs).reverse

/-- Python `.` (no DOTALL): any character except a newline. -/
def isDotChar (c : Char) : Bool := c != '\n'

/-- `$` (no MULTILINE): end of input, or just before a trailing newline. -/
def endAnchor (l : List Char) : Bool := l.isEmpty || l == ['\n']

/-- Candidate splits for a greedy `p+`: every nonempty `p`-prefix together
with its remainder, longest first. -/
def plusSplits (p : Char → Bool) (l : List Char) : List (List Char × List Char) :=
  (List.range (l.takeWhile p).length).reverse.map fun j => (l.take (j + 1), l.drop (j + 1))

/-- Candidate splits for a greedy `p{k,}`: `p`-prefixes of length at least
`k`, longest first. -/
def minSplits (p : Char → Bool) (k : Nat) (l : List Char) : List (List Char × List Char) :=
  (List.range ((l.takeWhile p).length + 1 - k)).reverse.map fun j =>
    (l.take (k + j), l.drop (k + j))

/-- The shared regex tail `\s+(.+)$`: greedy whitespace, then the captured
name run, then the anchor. -/
def wsNameTail (l : List Char) : Option (List Char) :=
  (plusSplits isPyWs l).findSome? fun s2 =>
    (plusSplits isDotChar s2.2).findSome? fun s3 =>
      if endAnchor s3.2 then some s3.1 else none

/-- `re.match(r'^@([a-zA-Z0-9_]+)\s+(.+)$', text)`, as the pair of captured
groups. -/
def matchUsernameRe (l : List Char) : Option (List Char × List Char) :=
  match l with
  | '@' :: rest =>
    (plusSplits isWordChar rest).findSome? fun s1 =>
      (wsNameTail s1.2).map fun nm => (s1.1, nm)
  | _ => none

/-- `re.match(r'^(-100\d{10,})\s+(.+)$', text)`, as the pair of captured
groups (group 1 includes the literal `-100` prefix). -/
def matchIdRe (l : List Char) : Option (List Char × List Char) :=
  match l with
  | '-' :: '1' :: '0' :: '0' :: rest =>
    (minSplits Char.isDigit 10 rest).findSome? fun s1 =>
      (wsNameTail s1.2).map fun nm => ('-' :: '1' :: '0' :: '0' :: s1.1, nm)
  | _ => none

/-- The parsing stage of `_handle_channel_setup`: strip, try the username
format (yields `@username` as the channel reference), else the `-100…`
numeric format; `none` is the invalid-format outcome. -/
def parseChannelInput (text : List Char) : Option (List Char × List Char) :=
  match matchUsernameRe (pyStrip text) with
  | some (uname, name) => some ('@' :: uname, name)
  | none => matchIdRe (pyStrip text)

inductive SetupOutcome where
  | invalidFormat
  | nameTooLong
  | duplicate
  | added
deriving DecidableEq

/-- `str.lower()` (ASCII; all channel references produced by the parser are
ASCII). -/
def lowerL (l : List Char) : List Char := l.map Char.toLower

/-- `_handle_channel_setup` for a registered user: parse, validate the name
length, reject a case-insensitive duplicate among the user's active
channels, otherwise persist the channel and clear the user's state.  (The
storage-failure branch of `add_channel` is outside the model.) -/
def channelSetupStep {V : Type} (store : ChanStore) (sm : StateManager V) (uid : Int)
    (text : List Char) : SetupOutcome × ChanStore × StateManager V :=
  match parseChannelInput text with
  | none => (SetupOutcome.invalidFormat, store, sm)
  | some (cid, cname) =>
    if 100 < cname.length then (SetupOutcome.nameTooLong, store, sm)
    else if (getUserChannels store uid).any (fun ch => lowerL ch.channelId == lowerL cid) then
      (SetupOutcome.duplicate, store, sm)
    else
      (SetupOutcome.added, (addChannel store uid cid cname).1, clearState sm uid)

/-! ## Helper lemmas on the matcher combinators -/

theorem exists_of_findSome?_eq_some {α β : Type} {f : α → Option β} {b : β} {l : List α}
    (h : l.findSome? f = some b) : ∃ a, a ∈ l ∧ f a = some b := by
  induction l with
  | nil => simp [List.findSome?_nil] at h
  | cons x xs ih =>
    rw [List.findSome?_cons] at h
    cases hx : f x with
    | some v =>
      rw [hx] at h
      simp only [Option.some.injEq] at h
      exact ⟨x, List.mem_cons_self x xs, by rw [hx, h]⟩
    | none =>
      rw [hx] at h
      obtain ⟨a, ha, hfa⟩ := ih h
      exact ⟨a, List.mem_cons_of_mem x ha, hfa⟩

theorem take_all_of_le_takeWhile {p : Char → Bool} (l : List Char) :
    ∀ (k : Nat), k ≤ (l.takeWhile p).length → (l.take k).all p = true := by
  induction l with
  | nil =>
    intro k h
    simp at h
    subst h
    simp
  | cons c rest ih =>
    intro k h
    by_cases hc : p c
    · rw [List.takeWhile_cons_of_pos hc] at h
      cases k with
      | zero => simp
      | succ k' =>
        simp only [List.take_succ_cons, List.all_cons, Bool.and_eq_true]
        exact ⟨hc, ih k' (by simpa using h)⟩
    · rw [List.takeWhile_cons_of_neg hc] at h
      simp at h
      subst h
      simp

theorem plusSplits_mem {p : Char → Bool} {l a b : List Char}
    (h : (a, b) ∈ plusSplits p l) :
    a ≠ [] ∧ a.all p = true ∧ a ++ b = l := by
  unfold plusSplits at h
  rw [List.mem_map] at h
  obtain ⟨j, hj, hs⟩ := h
  rw [List.mem_reverse, List.mem_range] at hj
  have hlen : (l.takeWhile p).length ≤ l.length := (List.takeWhile_sublist p).length_le
  injection hs with h1 h2
  subst h1
  subst h2
  refine ⟨?_, take_all_of_le_takeWhile l _ (by omega), List.take_append_drop _ l⟩
  have hlt : (l.take (j + 1)).length = j + 1 := by
    rw [List.length_take]
    omega
  intro hnil
  rw [hnil] at hlt
  simp at hlt

theorem minSplits_mem {p : Char → Bool} {k : Nat} {l a b : List Char}
    (h : (a, b) ∈ minSplits p k l) :
    k ≤ a.length ∧ a.all p = true ∧ a ++ b = l := by
  unfold minSplits at h
  rw [List.mem_map] at h
  obtain ⟨j, hj, hs⟩ := h
  rw [List.mem_reverse, List.mem_range] at hj
  have hlen : (l.takeWhile p).length ≤ l.length := (List.takeWhile_sublist p).length_le
  injection hs with h1 h2
  subst h1
  subst h2
  refine ⟨?_, take_all_of_le_takeWhile l _ (by omega), List.take_append_drop _ l⟩
  simp only [List.length_take]
  omega

theorem matchUsernameRe_shape {l u nm : List Char}
    (h : matchUsernameRe l = some (u, nm)) : u ≠ [] ∧ u.all isWordChar = true := by
  unfold matchUsernameRe at h
  split at h
  case _ rest =>
    obtain ⟨s1, hs1, hf⟩ := exists_of_findSome?_eq_some h
    obtain ⟨u1, r1⟩ := s1
    cases htail : wsNameTail (u1, r1).2 with
    | none => rw [htail] at hf; simp at hf
    | some nm' =>
      rw [htail] at hf
      simp only [Option.map_some', Option.some.injEq, Prod.mk.injEq] at hf
      obtain ⟨hne, hall, _⟩ := plusSplits_mem hs1
      exact hf.1 ▸ ⟨hne, hall⟩
  case _ => exact absurd h (by simp)

theorem matchIdRe_shape {l cid nm : List Char}
    (h : matchIdRe l = some (cid, nm)) :
    ∃ ds, cid = '-' :: '1' :: '0' :: '0' :: ds ∧ 10 ≤ ds.length ∧
      ds.all Char.isDigit = true := by
  unfold matchIdRe at h
  split at h
  case _ rest =>
    obtain ⟨s1, hs1, hf⟩ := exists_of_findSome?_eq_some h
    obtain ⟨d1, r1⟩ := s1
    cases htail : wsNameTail (d1, r1).2 with
    | none => rw [htail] at hf; simp at hf
    | some nm' =>
      rw [htail] at hf
      simp only [Option.map_some', Option.some.injEq, Prod.mk.injEq] at hf
      obtain ⟨hk, hall, _⟩ := minSplits_mem hs1
      exact ⟨d1, hf.1.symm, hk, hall⟩
  case _ => exact absurd h (by simp)

/-- Soundness of the channel-reference parser: every accepted reference has
one of the two shapes (an `@` handle of word characters, or `-100` followed
by at least 10 digits). -/
theorem parseChannelInput_shape {text cid cname : List Char}
    (h : parseChannelInput text = some (cid, cname)) :
    (∃ w, cid = '@' :: w ∧ w ≠ [] ∧ w.all isWordChar = true) ∨
    (∃ ds, cid = '-' :: '1' :: '0' :: '0' :: ds ∧ 10 ≤ ds.length ∧
      ds.all Char.isDigit = true) := by
  unfold parseChannelInput at h
  cases hm : matchUsernameRe (pyStrip text) with
  | some p =>
    obtain ⟨u, nm⟩ := p
    rw [hm] at h
    simp only [Option.some.injEq, Prod.mk.injEq] at h
    obtain ⟨hne, hall⟩ := matchUsernameRe_shape hm
    exact Or.inl ⟨u, h.1.symm, hne, hall⟩
  | none =>
    rw [hm] at h
    exact Or.inr (matchIdRe_shape h)

/-! ## Dedup-loop lemmas -/

theorem mem_dedupSeen {α : Type} [DecidableEq α] (seen l : List α) (x : α) :
    x ∈ dedupSeen seen l ↔ x ∈ l ∧ x ∉ seen := by
  induction l generalizing seen with
  | nil => simp [dedupSeen]
  | cons a rest ih =>
    by_cases ha : a ∈ seen
    · rw [dedupSeen, if_pos ha, ih seen]
      constructor
      · rintro ⟨hx, hxs⟩
        exact ⟨List.mem_cons_of_mem a hx, hxs⟩
      · rintro ⟨hx, hxs⟩
        rcases List.mem_cons.mp hx with hxa | hxr
        · exact absurd (hxa ▸ ha) hxs
        · exact ⟨hxr, hxs⟩
    · rw [dedupSeen, if_neg ha]
      constructor
      · intro hx
        rcases List.mem_cons.mp hx with hxa | hxr
        · exact ⟨hxa ▸ List.mem_cons_self a rest, fun hs => ha (hxa ▸ hs)⟩
        · obtain ⟨h1, h2⟩ := (ih (a :: seen)).mp hxr
          exact ⟨List.mem_cons_of_mem a h1, fun hs => h2 (List.mem_cons_of_mem a hs)⟩
      · rintro ⟨hx, hxs⟩
        by_cases hxa : x = a
        · exact hxa ▸ List.mem_cons_self a _
        · rcases List.mem_cons.mp hx with h | h
          · exact absurd h hxa
          · refine List.mem_cons_of_mem a ((ih (a :: seen)).mpr ⟨h, fun hs => ?_⟩)
            rcases List.mem_cons.mp hs with h' | h'
            · exact hxa h'
            · exact hxs h'

theorem nodup_dedupSeen {α : Type} [DecidableEq α] (seen l : List α) :
    (dedupSeen seen l).Nodup := by
  induction l generalizing seen with
  | nil => simp [dedupSeen]
  | cons a rest ih =>
    by_cases ha : a ∈ seen
    · rw [dedupSeen, if_pos ha]
      exact ih seen
    · rw [dedupSeen, if_neg ha]
      refine List.nodup_cons.mpr ⟨fun hmem => ?_, ih (a :: seen)⟩
      exact ((mem_dedupSeen (a :: seen) rest a).mp hmem).2 (List.mem_cons_self a seen)

theorem sublist_dedupSeen {α : Type} [DecidableEq α] (seen l : List α) :
    (dedupSeen seen l).Sublist l := by
  induction l generalizing seen with
  | nil => simp [dedupSeen]
  | cons a rest ih =>
    by_cases ha : a ∈ seen
    · rw [dedupSeen, if_pos ha]
      exact (ih seen).cons a
    · rw [dedupSeen, if_neg ha]
      exact (ih (a :: seen)).cons₂ a

/-- Index of the first occurrence of `x` (length of the list if absent);
used to state first-occurrence order preservation. -/
def firstIdx {α : Type} [DecidableEq α] (x : α) : List α → Nat
  | [] => 0
  | a :: rest => if a = x then 0 else firstIdx x rest + 1

theorem firstIdx_cons_self {α : Type} [DecidableEq α] (x : α) (l : List α) :
    firstIdx x (x :: l) = 0 := by
  rw [firstIdx, if_pos rfl]

theorem firstIdx_cons_ne {α : Type} [DecidableEq α] {x a : α} (l : List α) (h : a ≠ x) :
    firstIdx x (a :: l) = firstIdx x l + 1 := by
  rw [firstIdx, if_neg h]

theorem firstIdx_dedupSeen {α : Type} [DecidableEq α] (seen l : List α) (x y : α)
    (hx : x ∈ dedupSeen seen l) (hy : y ∈ dedupSeen seen l) :
    (firstIdx x (dedupSeen seen l) ≤ firstIdx y (dedupSeen seen l) ↔
      firstIdx x l ≤ firstIdx y l) := by
  induction l generalizing seen with
  | nil => simp [dedupSeen] at hx
  | cons a rest ih =>
    by_cases ha : a ∈ seen
    · rw [dedupSeen, if_pos ha] at hx hy ⊢
      have hxa : x ≠ a := fun h => ((mem_dedupSeen seen rest x).mp hx).2 (h ▸ ha)
      have hya : y ≠ a := fun h => ((mem_dedupSeen seen rest y).mp hy).2 (h ▸ ha)
      rw [firstIdx_cons_ne rest (Ne.symm hxa), firstIdx_cons_ne rest (Ne.symm hya),
        Nat.succ_le_succ_iff]
      exact ih seen hx hy
    · rw [dedupSeen, if_neg ha] at hx hy ⊢
      by_cases hxa : x = a
      · subst hxa
        rw [firstIdx_cons_self, firstIdx_cons_self]
        simp
      · have hx' : x ∈ dedupSeen (a :: seen) rest := by
          rcases List.mem_cons.mp hx with h | h
          · exact absurd h hxa
          · exact h
        by_cases hya : y = a
        · subst hya
          rw [firstIdx_cons_self, firstIdx_cons_self,
            firstIdx_cons_ne _ (Ne.symm hxa), firstIdx_cons_ne rest (Ne.symm hxa)]
          simp
        · have hy' : y ∈ dedupSeen (a :: seen) rest := by
            rcases List.mem_cons.mp hy with h | h
            · exact absurd h hya
            · exact h
          rw [firstIdx_cons_ne _ (Ne.symm hxa), firstIdx_cons_ne _ (Ne.symm hya),
            firstIdx_cons_ne rest (Ne.symm hxa), firstIdx_cons_ne rest (Ne.symm hya),
            Nat.succ_le_succ_iff, Nat.succ_le_succ_iff]
          exact ih (a :: seen) hx' hy'

/-! ## Digit-run and scanner shape lemmas -/

theorem digitRun_le_length (l : List Char) : digitRun l ≤ l.length := by
  induction l with
  | nil => simp [digitRun]
  | cons c rest ih =>
    rw [digitRun]
    by_cases hc : c.isDigit
    · rw [if_pos hc]
      simpa using Nat.succ_le_succ ih
    · rw [if_neg hc]
      exact Nat.zero_le _

theorem take_digitRun_all (l : List Char) :
    ∀ (k : Nat), k ≤ digitRun l → (l.take k).all Char.isDigit = true := by
  induction l with
  | nil =>
    intro k h
    simp [digitRun] at h
    subst h
    simp
  | cons c rest ih =>
    intro k h
    rw [digitRun] at h
    by_cases hc : c.isDigit
    · rw [if_pos hc] at h
      cases k with
      | zero => simp
      | succ k' =>
        simp only [List.take_succ_cons, List.all_cons, Bool.and_eq_true]
        exact ⟨hc, ih k' (Nat.le_of_succ_le_succ h)⟩
    · rw [if_neg hc] at h
      interval_cases k
      simp

theorem fa1Go_shape (t : List Char) :
    ∀ (s : Nat) (m : List Char), m ∈ fa1Go t s →
    ∃ ds, m = '+' :: ds ∧ ds.all Char.isDigit = true ∧ 10 ≤ ds.length ∧ ds.length ≤ 15 := by
  induction t with
  | nil => intro s m hm; simp [fa1Go] at hm
  | cons c rest ih =>
    intro s m hm
    cases s with
    | succ s' => exact ih s' m hm
    | zero =>
      rw [fa1Go] at hm
      by_cases hc : c = '+'
      · rw [if_pos hc] at hm
        simp only at hm
        by_cases h10 : 10 ≤ digitRun rest
        · rw [if_pos h10] at hm
          rcases List.mem_cons.mp hm with hhead | htail
          · refine ⟨rest.take (min (digitRun rest) 15), hc ▸ hhead, ?_, ?_, ?_⟩
            · exact take_digitRun_all rest _ (Nat.min_le_left _ _)
            · rw [List.length_take]
              have := digitRun_le_length rest
              omega
            · rw [List.length_take]
              omega
          · exact ih _ m htail
        · rw [if_neg h10] at hm
          exact ih 0 m hm
      · rw [if_neg hc] at hm
        exact ih 0 m hm

theorem fa2Go_shape (t : List Char) :
    ∀ (s : Nat) (m : List Char), m ∈ fa2Go t s →
    m.all Char.isDigit = true ∧ 10 ≤ m.length ∧ m.length ≤ 15 := by
  induction t with
  | nil => intro s m hm; simp [fa2Go] at hm
  | cons c rest ih =>
    intro s m hm
    cases s with
    | succ s' => exact ih s' m hm
    | zero =>
      rw [fa2Go] at hm
      by_cases hc : c.isDigit
      · rw [if_pos hc] at hm
        simp only at hm
        by_cases h10 : 10 ≤ digitRun rest + 1
        · rw [if_pos h10] at hm
          rcases List.mem_cons.mp hm with hhead | htail
          · subst hhead
            have htk : min (digitRun rest + 1) 15 - 1 ≤ digitRun rest := by omega
            have hall := take_digitRun_all rest _ htk
            have hlen : (rest.take (min (digitRun rest + 1) 15 - 1)).length =
                min (digitRun rest + 1) 15 - 1 := by
              rw [List.length_take]
              have := digitRun_le_length rest
              omega
            refine ⟨?_, ?_, ?_⟩
            · simp only [List.all_cons, Bool.and_eq_true]
              exact ⟨hc, hall⟩
            · simp only [List.length_cons, hlen]
              omega
            · simp only [List.length_cons, hlen]
              omega
          · exact ih _ m htail
        · rw [if_neg h10] at hm
          exact ih 0 m hm
      · rw [if_neg hc] at hm
        exact ih 0 m hm

/-- Characters a grouped-pattern match may contain. -/
def isGroupedChar (c : Char) : Bool := c.isDigit || isSepChar c

theorem chompDigits_spec :
    ∀ (n : Nat) (l l' : List Char), chompDigits n l = some l' →
    ∃ a, l = a ++ l' ∧ a.all Char.isDigit = true ∧ a.length = n := by
  intro n
  induction n with
  | zero =>
    intro l l' h
    rw [chompDigits] at h
    exact ⟨[], by simpa using h, rfl, rfl⟩
  | succ n' ih =>
    intro l l' h
    cases l with
    | nil => simp [chompDigits] at h
    | cons c rest =>
      rw [chompDigits] at h
      by_cases hc : c.isDigit
      · rw [if_pos hc] at h
        obtain ⟨a, ha1, ha2, ha3⟩ := ih rest l' h
        exact ⟨c :: a, by rw [List.cons_append, ha1],
          by simp only [List.all_cons, Bool.and_eq_true]; exact ⟨hc, ha2⟩,
          by simp [ha3]⟩
      · rw [if_neg hc] at h
        exact absurd h (by simp)

theorem chompSep_spec (l l' : List Char) (h : chompSep l = some l') :
    ∃ c, l = c :: l' ∧ isSepChar c = true := by
  cases l with
  | nil => simp [chompSep] at h
  | cons c rest =>
    rw [chompSep] at h
    by_cases hc : isSepChar c
    · rw [if_pos hc] at h
      simp only [Option.some.injEq] at h
      exact ⟨c, by rw [h], hc⟩
    · rw [if_neg hc] at h
      exact absurd h (by simp)

theorem matchGrouped_spec (a b c d : Nat) (l : List Char) (n : Nat)
    (h : matchGrouped a b c d l = some n) :
    ∃ pre rest, l = pre ++ rest ∧ pre.length = n ∧ pre.all isGroupedChar = true ∧
      n = a + 1 + b + 1 + c + 1 + d := by
  unfold matchGrouped at h
  cases h1 : chompDigits a l with
  | none => rw [h1] at h; simp at h
  | some l1 =>
    rw [h1] at h
    simp only [Option.some_bind] at h
    cases h2 : chompSep l1 with
    | none => rw [h2] at h; simp at h
    | some l2 =>
      rw [h2] at h
      simp only [Option.some_bind] at h
      cases h3 : chompDigits b l2 with
      | none => rw [h3] at h; simp at h
      | some l3 =>
        rw [h3] at h
        simp only [Option.some_bind] at h
        cases h4 : chompSep l3 with
        | none => rw [h4] at h; simp at h
        | some l4 =>
          rw [h4] at h
          simp only [Option.some_bind] at h
          cases h5 : chompDigits c l4 with
          | none => rw [h5] at h; simp at h
          | some l5 =>
            rw [h5] at h
            simp only [Option.some_bind] at h
            cases h6 : chompSep l5 with
            | none => rw [h6] at h; simp at h
            | some l6 =>
              rw [h6] at h
              simp only [Option.some_bind] at h
              cases h7 : chompDigits d l6 with
              | none => rw [h7] at h; simp at h
              | some l7 =>
                rw [h7] at h
                simp only [Option.map_some', Option.some.injEq] at h
                obtain ⟨a1, ha1, ha2, ha3⟩ := chompDigits_spec a l l1 h1
                obtain ⟨s1, hs1, hs2⟩ := chompSep_spec l1 l2 h2
                obtain ⟨b1, hb1, hb2, hb3⟩ := chompDigits_spec b l2 l3 h3
                obtain ⟨s2, ht1, ht2⟩ := chompSep_spec l3 l4 h4
                obtain ⟨c1, hc1, hc2, hc3⟩ := chompDigits_spec c l4 l5 h5
                obtain ⟨s3, hu1, hu2⟩ := chompSep_spec l5 l6 h6
                obtain ⟨d1, hd1, hd2, hd3⟩ := chompDigits_spec d l6 l7 h7
                refine ⟨a1 ++ s1 :: (b1 ++ s2 :: (c1 ++ s3 :: d1)), l7, ?_, ?_, ?_, h.symm⟩
                · rw [ha1, hs1, hb1, ht1, hc1, hu1, hd1]
                  simp
                · simp only [List.length_append, List.length_cons, ha3, hb3, hc3, hd3]
                  omega
                · have hdig : ∀ (u : List Char), u.all Char.isDigit = true →
                      u.all isGroupedChar = true := by
                    intro u hu
                    rw [List.all_eq_true] at hu ⊢
                    intro ch hch
                    unfold isGroupedChar
                    rw [hu ch hch]
                    rfl
                  have hsep : ∀ (ch : Char), isSepChar ch = true → isGroupedChar ch = true := by
                    intro ch hch
                    unfold isGroupedChar
                    rw [hch, Bool.or_true]
                  simp only [List.all_append, List.all_cons, Bool.and_eq_true]
                  exact ⟨hdig a1 ha2, hsep s1 hs2, hdig b1 hb2, hsep s2 ht2,
                    hdig c1 hc2, hsep s3 hu2, hdig d1 hd2⟩

theorem tryGrouped_spec (l : List Char) (n : Nat) (h : tryGrouped l = some n) :
    ∃ pre rest, l = pre ++ rest ∧ pre.length = n ∧ pre.all isGroupedChar = true ∧
      13 ≤ n ∧ n ≤ 19 := by
  obtain ⟨t, ht, hf⟩ := exists_of_findSome?_eq_some h
  obtain ⟨pre, rest, h1, h2, h3, h4⟩ :=
    matchGrouped_spec t.1 t.2.1 t.2.2.1 t.2.2.2 l n hf
  refine ⟨pre, rest, h1, h2, h3, ?_, ?_⟩ <;>
  · rw [h4]
    revert ht
    unfold groupTuples
    intro ht
    fin_cases ht <;> simp

/-- A grouped-pattern match is at least 13 characters long, so the scanner
advances. -/
theorem fa3Go_shape (t : List Char) :
    ∀ (s : Nat) (m : List Char), m ∈ fa3Go t s → m.all isGroupedChar = true := by
  induction t with
  | nil => intro s m hm; simp [fa3Go] at hm
  | cons c rest ih =>
    intro s m hm
    cases s with
    | succ s' => exact ih s' m hm
    | zero =>
      rw [fa3Go] at hm
      cases hg : tryGrouped (c :: rest) with
      | some n =>
        rw [hg] at hm
        rcases List.mem_cons.mp hm with hhead | htail
        · obtain ⟨pre, rest', h1, h2, h3, _, _⟩ := tryGrouped_spec (c :: rest) n hg
          subst hhead
          rw [h1, List.take_append_of_le_length (by rw [h2]), ← h2, List.take_length]
          exact h3
        · exact ih _ m htail
      | none =>
        rw [hg] at hm
        exact ih 0 m hm

/-! ## Cleaning lemmas -/

theorem sep_not_digit {c : Char} (h : isSepChar c = true) : c.isDigit = false := by
  unfold isSepChar at h
  simp only [Bool.or_eq_true, decide_eq_true_eq] at h
  rcases h with ((((((h | h) | h) | h) | h) | h) | h) <;> subst h <;> decide

theorem cleanNum_all_digit {m : List Char} (h : m.all isGroupedChar = true) :
    (cleanNum m).all Char.isDigit = true := by
  rw [List.all_eq_true] at h ⊢
  intro c hc
  rw [cleanNum, List.mem_filter] at hc
  have := h c hc.1
  unfold isGroupedChar at this
  rcases Bool.or_eq_true .. ▸ this with hd | hs
  · exact hd
  · rw [hs] at hc
    simp at hc

theorem cleanNum_of_noSep {m : List Char} (h : ∀ c ∈ m, isSepChar c = false) :
    cleanNum m = m := by
  rw [cleanNum, List.filter_eq_self]
  intro c hc
  rw [h c hc]
  rfl

theorem digit_not_sep {c : Char} (h : c.isDigit = true) : isSepChar c = false := by
  cases hs : isSepChar c with
  | false => rfl
  | true => rw [sep_not_digit hs] at h; exact absurd h (by simp)

theorem all_digit_noSep {m : List Char} (h : m.all Char.isDigit = true) :
    ∀ c ∈ m, isSepChar c = false := by
  rw [List.all_eq_true] at h
  intro c hc
  exact digit_not_sep (h c hc)

theorem mem_accumFrom {ms : List (List Char)} {x : List Char} :
    x ∈ accumFrom ms ↔ ∃ m ∈ ms, x = cleanNum m ∧ 10 ≤ x.length ∧ x.length ≤ 15 := by
  unfold accumFrom
  rw [List.mem_filter, List.mem_map]
  constructor
  · rintro ⟨⟨m, hm, hx⟩, hlen⟩
    simp only [Bool.and_eq_true, decide_eq_true_eq] at hlen
    exact ⟨m, hm, hx.symm, hlen.1, hlen.2⟩
  · rintro ⟨m, hm, hx, h1, h2⟩
    refine ⟨⟨m, hm, hx.symm⟩, ?_⟩
    simp only [Bool.and_eq_true, decide_eq_true_eq]
    exact ⟨h1, h2⟩

/-! ## Concatenation behaviour of the scanners (for the idempotence claim) -/

theorem digitRun_cons_digit {c : Char} (rest : List Char) (h : c.isDigit = true) :
    digitRun (c :: rest) = digitRun rest + 1 := by
  rw [digitRun, if_pos h]

theorem digitRun_cons_nondigit {c : Char} (rest : List Char) (h : c.isDigit = false) :
    digitRun (c :: rest) = 0 := by
  rw [digitRun, if_neg (by simp [h])]

theorem digitRun_append_all {ds : List Char} (h : ds.all Char.isDigit = true)
    (l : List Char) : digitRun (ds ++ l) = ds.length + digitRun l := by
  induction ds with
  | nil => simp
  | cons c rest ih =>
    rw [List.all_cons, Bool.and_eq_true] at h
    rw [List.cons_append, digitRun_cons_digit _ h.1, ih h.2, List.length_cons]
    omega

theorem head_digit_of_digitRun_pos {l : List Char} (h : 1 ≤ digitRun l) :
    ∃ c rest, l = c :: rest ∧ c.isDigit = true := by
  cases l with
  | nil => simp [digitRun] at h
  | cons c rest =>
    by_cases hc : c.isDigit
    · exact ⟨c, rest, rfl, hc⟩
    · rw [digitRun_cons_nondigit rest (by simpa using hc)] at h
      omega

theorem digit_ne_plus {c : Char} (h : c.isDigit = true) : c ≠ '+' := by
  intro he
  subst he
  exact absurd h (by decide)

theorem fa1Go_skip (xs : List Char) :
    ∀ (l : List Char), fa1Go (xs ++ l) xs.length = fa1Go l 0 := by
  induction xs with
  | nil => intro l; rfl
  | cons c rest ih =>
    intro l
    rw [List.cons_append, List.length_cons]
    exact ih l

theorem fa2Go_skip (xs : List Char) :
    ∀ (l : List Char), fa2Go (xs ++ l) xs.length = fa2Go l 0 := by
  induction xs with
  | nil => intro l; rfl
  | cons c rest ih =>
    intro l
    rw [List.cons_append, List.length_cons]
    exact ih l

theorem matchGrouped_has_sep (a b c d : Nat) (l : List Char) (n : Nat)
    (h : matchGrouped a b c d l = some n) : ∃ ch ∈ l, isSepChar ch = true := by
  unfold matchGrouped at h
  cases h1 : chompDigits a l with
  | none => rw [h1] at h; simp at h
  | some l1 =>
    rw [h1] at h
    simp only [Option.some_bind] at h
    cases h2 : chompSep l1 with
    | none => rw [h2] at h; simp at h
    | some l2 =>
      obtain ⟨a1, ha1, _, _⟩ := chompDigits_spec a l l1 h1
      obtain ⟨s1, hs1, hsep⟩ := chompSep_spec l1 l2 h2
      refine ⟨s1, ?_, hsep⟩
      rw [ha1, hs1]
      exact List.mem_append_right _ (List.mem_cons_self _ _)

theorem tryGrouped_none_of_noSep {l : List Char} (h : ∀ ch ∈ l, isSepChar ch = false) :
    tryGrouped l = none := by
  cases hg : tryGrouped l with
  | none => rfl
  | some n =>
    obtain ⟨tu, _, hf⟩ := exists_of_findSome?_eq_some hg
    obtain ⟨ch, hch, hsep⟩ := matchGrouped_has_sep tu.1 tu.2.1 tu.2.2.1 tu.2.2.2 l n hf
    rw [h ch hch] at hsep
    exact absurd hsep (by simp)

theorem fa3Go_noSep {l : List Char} (h : ∀ ch ∈ l, isSepChar ch = false) :
    ∀ s, fa3Go l s = [] := by
  induction l with
  | nil => intro s; rfl
  | cons c rest ih =>
    intro s
    have hrest : ∀ ch ∈ rest, isSepChar ch = false :=
      fun ch hch => h ch (List.mem_cons_of_mem c hch)
    cases s with
    | succ s' => exact ih hrest s'
    | zero =>
      rw [fa3Go, tryGrouped_none_of_noSep h]
      exact ih hrest 0

theorem fa1Go_digits_step {e : List Char} (he : e.all Char.isDigit = true) (tail : List Char) :
    fa1Go (e ++ tail) 0 = fa1Go tail 0 := by
  induction e with
  | nil => rfl
  | cons c rest ih =>
    rw [List.all_cons, Bool.and_eq_true] at he
    rw [List.cons_append, fa1Go, if_neg (digit_ne_plus he.1)]
    exact ih he.2

theorem fa1Go_plus_step {ds : List Char} (hall : ds.all Char.isDigit = true)
    (h10 : 10 ≤ ds.length) (h14 : ds.length ≤ 14) (tail : List Char)
    (htail : digitRun tail = 0) :
    fa1Go (('+' :: ds) ++ tail) 0 = ('+' :: ds) :: fa1Go tail 0 := by
  rw [List.cons_append, fa1Go, if_pos rfl]
  simp only
  have hr : digitRun (ds ++ tail) = ds.length := by
    rw [digitRun_append_all hall, htail]
    omega
  rw [hr, if_pos h10]
  have hmin : min ds.length 15 = ds.length := by omega
  rw [hmin, List.take_left, fa1Go_skip]

theorem fa1Go_comma (l : List Char) : fa1Go (',' :: l) 0 = fa1Go l 0 := by
  rw [fa1Go, if_neg (by decide)]

theorem fa2Go_digits_step {e : List Char} (hall : e.all Char.isDigit = true)
    (h10 : 10 ≤ e.length) (h15 : e.length ≤ 15) (tail : List Char)
    (htail : digitRun tail = 0) :
    fa2Go (e ++ tail) 0 = e :: fa2Go tail 0 := by
  cases e with
  | nil => simp at h10
  | cons d0 e' =>
    rw [List.all_cons, Bool.and_eq_true] at hall
    rw [List.cons_append, fa2Go, if_pos hall.1]
    simp only
    have hr : digitRun (e' ++ tail) = e'.length := by
      rw [digitRun_append_all hall.2, htail]
      omega
    rw [hr]
    rw [List.length_cons] at h10 h15
    rw [if_pos (by omega : 10 ≤ e'.length + 1)]
    have hmin : min (e'.length + 1) 15 = e'.length + 1 := by omega
    rw [hmin, Nat.add_sub_cancel, List.take_left, fa2Go_skip]

theorem fa2Go_plus_step {ds : List Char} (hall : ds.all Char.isDigit = true)
    (h10 : 10 ≤ ds.length) (h15 : ds.length ≤ 15) (tail : List Char)
    (htail : digitRun tail = 0) :
    fa2Go (('+' :: ds) ++ tail) 0 = ds :: fa2Go tail 0 := by
  rw [List.cons_append, fa2Go, if_neg (by decide)]
  exact fa2Go_digits_step hall h10 h15 tail htail

theorem fa2Go_comma (l : List Char) : fa2Go (',' :: l) 0 = fa2Go l 0 := by
  rw [fa2Go, if_neg (by decide)]

/-! ## Positions of plus-pattern matches, and fa2 coverage of short runs -/

theorem fa1Go_mem_position (t : List Char) :
    ∀ (s : Nat) (m : List Char), m ∈ fa1Go t s →
    ∃ v u, t = v ++ '+' :: u ∧ m = '+' :: u.take (min (digitRun u) 15) ∧
      10 ≤ digitRun u := by
  induction t with
  | nil => intro s m hm; simp [fa1Go] at hm
  | cons c rest ih =>
    intro s m hm
    cases s with
    | succ s' =>
      obtain ⟨v, u, h1, h2, h3⟩ := ih s' m hm
      exact ⟨c :: v, u, by rw [List.cons_append, h1], h2, h3⟩
    | zero =>
      rw [fa1Go] at hm
      by_cases hc : c = '+'
      · rw [if_pos hc] at hm
        simp only at hm
        by_cases h10 : 10 ≤ digitRun rest
        · rw [if_pos h10] at hm
          rcases List.mem_cons.mp hm with hh | ht
          · exact ⟨[], rest, by rw [hc, List.nil_append], by rw [hh, hc], h10⟩
          · obtain ⟨v, u, h1, h2, h3⟩ := ih _ m ht
            exact ⟨c :: v, u, by rw [List.cons_append, h1], h2, h3⟩
        · rw [if_neg h10] at hm
          obtain ⟨v, u, h1, h2, h3⟩ := ih 0 m hm
          exact ⟨c :: v, u, by rw [List.cons_append, h1], h2, h3⟩
      · rw [if_neg hc] at hm
        obtain ⟨v, u, h1, h2, h3⟩ := ih 0 m hm
        exact ⟨c :: v, u, by rw [List.cons_append, h1], h2, h3⟩

theorem fa2Go_lift {x : List Char} (u : List Char) (hx : x ∈ fa2Go u 0) :
    ∀ (v : List Char) (s : Nat), s ≤ digitRun (v ++ '+' :: u) →
      x ∈ fa2Go (v ++ '+' :: u) s := by
  intro v
  induction v with
  | nil =>
    intro s hs
    rw [List.nil_append] at hs ⊢
    rw [digitRun_cons_nondigit u (by decide)] at hs
    interval_cases s
    rw [fa2Go, if_neg (by decide)]
    exact hx
  | cons a v' ih =>
    intro s hs
    rw [List.cons_append] at hs ⊢
    cases s with
    | succ s' =>
      rw [fa2Go]
      apply ih s'
      by_cases ha : a.isDigit
      · rw [digitRun_cons_digit _ ha] at hs
        omega
      · rw [digitRun_cons_nondigit _ (by simpa using ha)] at hs
        omega
    | zero =>
      rw [fa2Go]
      by_cases ha : a.isDigit
      · rw [if_pos ha]
        simp only
        by_cases h10 : 10 ≤ digitRun (v' ++ '+' :: u) + 1
        · rw [if_pos h10]
          refine List.mem_cons_of_mem _ (ih _ ?_)
          have := Nat.min_le_left (digitRun (v' ++ '+' :: u) + 1) 15
          omega
        · rw [if_neg h10]
          exact ih 0 (Nat.zero_le _)
      · rw [if_neg ha]
        exact ih 0 (Nat.zero_le _)

theorem fa2Go_emit_head {u : List Char} (h10 : 10 ≤ digitRun u)
    (h14 : digitRun u ≤ 14) : u.take (digitRun u) ∈ fa2Go u 0 := by
  obtain ⟨d0, u', heq, hd⟩ := head_digit_of_digitRun_pos (by omega : 1 ≤ digitRun u)
  subst heq
  rw [digitRun_cons_digit _ hd] at h10 h14 ⊢
  rw [fa2Go, if_pos hd]
  simp only
  rw [if_pos h10]
  have hmin : min (digitRun u' + 1) 15 = digitRun u' + 1 := by omega
  rw [hmin, Nat.add_sub_cancel, List.take_succ_cons]
  exact List.mem_cons_self _ _

/-! ## Shapes of extractor output elements -/

/-- A retained plus-pattern result: `+` followed by 10–14 digits. -/
def PlusShape (x : List Char) : Prop :=
  ∃ ds, x = '+' :: ds ∧ ds.all Char.isDigit = true ∧ 10 ≤ ds.length ∧ ds.length ≤ 14

/-- A retained bare or grouped result: 10–15 digits. -/
def DigitShape (x : List Char) : Prop :=
  x.all Char.isDigit = true ∧ 10 ≤ x.length ∧ x.length ≤ 15

theorem fa1_match_noSep {t : List Char} {m : List Char} (hm : m ∈ fa1 t) :
    ∀ c ∈ m, isSepChar c = false := by
  obtain ⟨ds, hds, hall, _, _⟩ := fa1Go_shape t 0 m hm
  intro c hc
  rw [hds] at hc
  rcases List.mem_cons.mp hc with h | h
  · subst h; decide
  · exact all_digit_noSep hall c h

theorem shape_extract {t x : List Char} (hx : x ∈ extractPhoneNumbers t) :
    PlusShape x ∨ DigitShape x := by
  have hx' : x ∈ accumNums t := ((mem_dedupSeen [] _ x).mp hx).1
  rw [accumNums, List.mem_append, List.mem_append] at hx'
  rcases hx' with (h1 | h2) | h3
  · obtain ⟨m, hm, hxm, hlo, hhi⟩ := mem_accumFrom.mp h1
    obtain ⟨ds, hds, hall, hlo', hhi'⟩ := fa1Go_shape t 0 m hm
    have hxm' : x = m := by rw [hxm, cleanNum_of_noSep (fa1_match_noSep hm)]
    refine Or.inl ⟨ds, hxm' ▸ hds, hall, hlo', ?_⟩
    have : x.length ≤ 15 := hhi
    rw [hxm', hds, List.length_cons] at this
    omega
  · obtain ⟨m, hm, hxm, hlo, hhi⟩ := mem_accumFrom.mp h2
    obtain ⟨hall, _, _⟩ := fa2Go_shape t 0 m hm
    have hxm' : x = m := by rw [hxm, cleanNum_of_noSep (all_digit_noSep hall)]
    exact Or.inr ⟨hxm' ▸ hall, hlo, hhi⟩
  · obtain ⟨m, hm, hxm, hlo, hhi⟩ := mem_accumFrom.mp h3
    have hall := fa3Go_shape t 0 m hm
    exact Or.inr ⟨hxm ▸ cleanNum_all_digit hall, hlo, hhi⟩

/-- An accumulated value that starts with `'+'` can only come from the
plus-pattern run (bare and grouped results are all digits). -/
theorem plus_mem_accum_fa1 {t ds : List Char} (hx : ('+' :: ds) ∈ accumNums t) :
    ∃ m ∈ fa1 t, '+' :: ds = cleanNum m ∧ ds.length + 1 ≤ 15 := by
  rw [accumNums, List.mem_append, List.mem_append] at hx
  have hplusdig : ¬ (('+' :: ds).all Char.isDigit = true) := by
    simp only [List.all_cons, Bool.and_eq_true]
    rintro ⟨h, -⟩
    exact absurd h (by decide)
  rcases hx with (h1 | h2) | h3
  · obtain ⟨m, hm, hxm, _, hhi⟩ := mem_accumFrom.mp h1
    refine ⟨m, hm, hxm, ?_⟩
    have := hhi
    rw [List.length_cons] at this
    omega
  · obtain ⟨m, hm, hxm, _, _⟩ := mem_accumFrom.mp h2
    obtain ⟨hall, _, _⟩ := fa2Go_shape t 0 m hm
    have hxm' : '+' :: ds = m := by rw [hxm, cleanNum_of_noSep (all_digit_noSep hall)]
    exact absurd (hxm' ▸ hall) hplusdig
  · obtain ⟨m, hm, hxm, _, _⟩ := mem_accumFrom.mp h3
    have hall := fa3Go_shape t 0 m hm
    exact absurd (hxm ▸ cleanNum_all_digit hall) hplusdig

/-- Companion property: whenever the extractor keeps a plus-prefixed value
`+ds`, it also keeps the bare digits `ds` (the digit run after the `+` is
found again by the bare-run pattern and survives the same length filter). -/
theorem bare_of_plus_mem {t ds : List Char} (h : ('+' :: ds) ∈ extractPhoneNumbers t) :
    ds ∈ extractPhoneNumbers t := by
  have hacc : ('+' :: ds) ∈ accumNums t := ((mem_dedupSeen [] _ _).mp h).1
  obtain ⟨m, hm, hxm, hle⟩ := plus_mem_accum_fa1 hacc
  have hxm' : '+' :: ds = m := by rw [hxm, cleanNum_of_noSep (fa1_match_noSep hm)]
  obtain ⟨v, u, ht, hmshape, h10u⟩ := fa1Go_mem_position t 0 m hm
  have hds : ds = u.take (min (digitRun u) 15) := by
    have := hxm'.trans hmshape
    exact (List.cons.injEq .. ▸ this).2
  have htklen : (u.take (min (digitRun u) 15)).length = min (digitRun u) 15 := by
    rw [List.length_take]
    have := digitRun_le_length u
    omega
  have hlen : ds.length = min (digitRun u) 15 := by rw [hds, htklen]
  have hdru : digitRun u ≤ 14 := by
    by_contra hcon
    push_neg at hcon
    have : min (digitRun u) 15 = 15 := by omega
    omega
  have hmin : min (digitRun u) 15 = digitRun u := by omega
  have hds2 : ds = u.take (digitRun u) := by rw [hds, hmin]
  have hmem2 : u.take (digitRun u) ∈ fa2Go u 0 := fa2Go_emit_head h10u hdru
  have hmem3 : ds ∈ fa2 t := by
    rw [ht]
    exact fa2Go_lift u (hds2 ▸ hmem2) v 0 (Nat.zero_le _)
  have hdsdig : ds.all Char.isDigit = true := by
    rw [hds2]
    exact take_digitRun_all u _ le_rfl
  have hdslen : 10 ≤ ds.length ∧ ds.length ≤ 15 := by
    constructor <;> omega
  have hacc2 : ds ∈ accumNums t := by
    rw [accumNums]
    refine List.mem_append_left _ (List.mem_append_right _ ?_)
    exact mem_accumFrom.mpr ⟨ds, hmem3,
      (cleanNum_of_noSep (all_digit_noSep hdsdig)).symm, hdslen.1, hdslen.2⟩
  rw [extractPhoneNumbers, mem_dedupSeen]
  exact ⟨hacc2, by simp⟩

/-! ## Joining the output with commas, and rescanning it -/

/-- Comma-join of an extracted list (the re-extraction input of the
idempotence property). -/
def joinComma : List (List Char) → List Char
  | [] => []
  | [x] => x
  | x :: y :: xs => x ++ ',' :: joinComma (y :: xs)

/-- Whether an element is a retained plus-prefixed value. -/
def isPlusElem (e : List Char) : Bool :=
  match e with
  | c :: _ => c = '+'
  | [] => false

/-- The digit part of an element: drops a leading `'+'`, if any. -/
def digitPart (e : List Char) : List Char := if isPlusElem e then e.tail else e

theorem isPlusElem_false_of_digit {e : List Char} (h : DigitShape e) :
    isPlusElem e = false := by
  obtain ⟨hall, h10, _⟩ := h
  cases e with
  | nil => rfl
  | cons c e' =>
    rw [List.all_cons, Bool.and_eq_true] at hall
    rw [isPlusElem]
    simp [digit_ne_plus hall.1]

theorem good_noSep {e : List Char} (h : PlusShape e ∨ DigitShape e) :
    ∀ c ∈ e, isSepChar c = false := by
  rcases h with ⟨ds, rfl, hall, _, _⟩ | ⟨hall, _, _⟩
  · intro c hc
    rcases List.mem_cons.mp hc with h | h
    · subst h; decide
    · exact all_digit_noSep hall c h
  · exact all_digit_noSep hall

theorem joinComma_noSep {L : List (List Char)}
    (h : ∀ e ∈ L, PlusShape e ∨ DigitShape e) :
    ∀ c ∈ joinComma L, isSepChar c = false := by
  induction L with
  | nil => intro c hc; simp [joinComma] at hc
  | cons x L' ih =>
    cases L' with
    | nil =>
      intro c hc
      rw [joinComma] at hc
      exact good_noSep (h x (List.mem_cons_self _ _)) c hc
    | cons y xs =>
      intro c hc
      rw [joinComma, List.mem_append] at hc
      rcases hc with hc | hc
      · exact good_noSep (h x (List.mem_cons_self _ _)) c hc
      · rcases List.mem_cons.mp hc with hc | hc
        · subst hc; decide
        · exact ih (fun e he => h e (List.mem_cons_of_mem x he)) c hc

theorem digitRun_comma_cons (l : List Char) : digitRun (',' :: l) = 0 :=
  digitRun_cons_nondigit l (by decide)

theorem fa1_joinComma {L : List (List Char)}
    (h : ∀ e ∈ L, PlusShape e ∨ DigitShape e) :
    fa1 (joinComma L) = L.filter isPlusElem := by
  induction L with
  | nil => rfl
  | cons x L' ih =>
    cases L' with
    | nil =>
      rcases h x (List.mem_cons_self _ _) with ⟨ds, rfl, hall, h10, h14⟩ | hdig
      · have hstep := fa1Go_plus_step hall h10 h14 [] rfl
        rw [List.append_nil] at hstep
        rw [joinComma, fa1, hstep]
        rfl
      · have hstep := fa1Go_digits_step hdig.1 []
        rw [List.append_nil] at hstep
        rw [joinComma, fa1, hstep, List.filter_cons,
          if_neg (by rw [isPlusElem_false_of_digit hdig]; simp)]
        rfl
    | cons y xs =>
      have hx := h x (List.mem_cons_self _ _)
      have hrest : ∀ e ∈ y :: xs, PlusShape e ∨ DigitShape e :=
        fun e he => h e (List.mem_cons_of_mem x he)
      rcases hx with ⟨ds, rfl, hall, h10, h14⟩ | hdig
      · rw [joinComma, fa1,
          fa1Go_plus_step hall h10 h14 _ (digitRun_comma_cons _), fa1Go_comma,
          List.filter_cons, if_pos (by rw [isPlusElem]; simp)]
        rw [fa1] at ih
        rw [ih hrest]
      · rw [joinComma, fa1, fa1Go_digits_step hdig.1 _, fa1Go_comma,
          List.filter_cons, if_neg (by rw [isPlusElem_false_of_digit hdig]; simp)]
        rw [fa1] at ih
        rw [ih hrest]

theorem fa2_joinComma {L : List (List Char)}
    (h : ∀ e ∈ L, PlusShape e ∨ DigitShape e) :
    fa2 (joinComma L) = L.map digitPart := by
  induction L with
  | nil => rfl
  | cons x L' ih =>
    cases L' with
    | nil =>
      rcases h x (List.mem_cons_self _ _) with ⟨ds, rfl, hall, h10, h14⟩ | hdig
      · have hstep := fa2Go_plus_step hall h10 (by omega) [] rfl
        rw [List.append_nil] at hstep
        rw [joinComma, fa2, hstep]
        simp only [fa2Go]
        simp [digitPart, isPlusElem]
      · have hstep := fa2Go_digits_step hdig.1 hdig.2.1 hdig.2.2 [] rfl
        rw [List.append_nil] at hstep
        rw [joinComma, fa2, hstep]
        simp only [fa2Go]
        simp [digitPart, isPlusElem_false_of_digit hdig]
    | cons y xs =>
      have hrest : ∀ e ∈ y :: xs, PlusShape e ∨ DigitShape e :=
        fun e he => h e (List.mem_cons_of_mem x he)
      rw [fa2] at ih
      rcases h x (List.mem_cons_self _ _) with ⟨ds, rfl, hall, h10, h14⟩ | hdig
      · rw [joinComma, fa2,
          fa2Go_plus_step hall h10 (by omega) _ (digitRun_comma_cons _), fa2Go_comma,
          List.map_cons, ih hrest]
        simp [digitPart, isPlusElem]
      · rw [joinComma, fa2,
          fa2Go_digits_step hdig.1 hdig.2.1 hdig.2.2 _ (digitRun_comma_cons _), fa2Go_comma,
          List.map_cons, ih hrest]
        simp [digitPart, isPlusElem_false_of_digit hdig]

theorem fa3_joinComma {L : List (List Char)}
    (h : ∀ e ∈ L, PlusShape e ∨ DigitShape e) :
    fa3 (joinComma L) = [] :=
  fa3Go_noSep (joinComma_noSep h) 0

theorem accumFrom_eq_self {ms : List (List Char)}
    (h : ∀ x ∈ ms, (∀ c ∈ x, isSepChar c = false) ∧ 10 ≤ x.length ∧ x.length ≤ 15) :
    accumFrom ms = ms := by
  unfold accumFrom
  have h1 : ms.map cleanNum = ms := by
    induction ms with
    | nil => rfl
    | cons m rest ih =>
      rw [List.map_cons, cleanNum_of_noSep (h m (List.mem_cons_self _ _)).1,
        ih (fun x hx => h x (List.mem_cons_of_mem m hx))]
  rw [h1, List.filter_eq_self]
  intro a ha
  simp only [Bool.and_eq_true, decide_eq_true_eq]
  exact ⟨(h a ha).2.1, (h a ha).2.2⟩

/-! ## Claims about the store -/

/-- C2 (counterexample): the claim "for every user id whose stored premium
flag is true, calling registerUser again leaves the stored premium flag
true" is false: register user 1, grant premium, register again — the
whole-row `INSERT OR REPLACE` restores the `is_premium` column default `0`. -/
theorem c2_counterexample :
    ¬ (storedPremiumFlag
        (registerUser (setPremiumStatus (registerUser emptyUsers 1 none none).1 1 true).1
          1 none none).1 1 = true) := by
  decide

/-- C2 (amended): `registerUser` always succeeds, but it replaces the whole
row, so after the call the stored premium flag of that user is the column
default `false` — re-registration does not preserve a premium flag. -/
theorem c2_amended (db : Users) (uid : Int) (username firstName : Option String) :
    (registerUser db uid username firstName).2 = true ∧
    storedPremiumFlag (registerUser db uid username firstName).1 uid = false := by
  refine ⟨rfl, ?_⟩
  simp [registerUser, storedPremiumFlag]

/-- C7: `getCachedResult` is absent when no row exists for the pair or when
the stored `checked_at` is at least one hour before `now` (the row itself
surviving); otherwise it returns the stored frozen boolean. -/
theorem c7_cache_expiry (c : FrozenCache) (channelId phone : String) (now : Nat) :
    (c (channelId, phone) = none → getCachedResult c channelId phone now = none) ∧
    (∀ r, c (channelId, phone) = some r → r.checkedAt + 3600 ≤ now →
      getCachedResult c channelId phone now = none) ∧
    (∀ r, c (channelId, phone) = some r → now < r.checkedAt + 3600 →
      getCachedResult c channelId phone now = some r.isFrozen) := by
  refine ⟨fun h => ?_, fun r h hold => ?_, fun r h hfresh => ?_⟩
  · simp [getCachedResult, h]
  · simp [getCachedResult, h, Nat.not_lt.mpr hold]
  · simp [getCachedResult, h, hfresh]

/-- C7 (witness): an entry checked 61 minutes ago still physically exists
but reads as a cache miss; a fresh entry reads back its stored boolean. -/
theorem c7_witness :
    (cacheFrozenResult emptyCache "@chan" "1234567890" true 0) ("@chan", "1234567890") =
      some ⟨true, 0⟩ ∧
    getCachedResult (cacheFrozenResult emptyCache "@chan" "1234567890" true 0)
      "@chan" "1234567890" 3660 = none ∧
    getCachedResult (cacheFrozenResult emptyCache "@chan" "1234567890" true 0)
      "@chan" "1234567890" 60 = some true := by
  refine ⟨by decide, ?_, ?_⟩
  · exact (c7_cache_expiry (cacheFrozenResult emptyCache "@chan" "1234567890" true 0)
      "@chan" "1234567890" 3660).2.1 ⟨true, 0⟩ (by decide) (by decide)
  · exact (c7_cache_expiry (cacheFrozenResult emptyCache "@chan" "1234567890" true 0)
      "@chan" "1234567890" 60).2.2 ⟨true, 0⟩ (by decide) (by decide)

/-- C8: an allowlisted user id is premium regardless of the store (the
result does not depend on the store at all), and a non-allowlisted id reads
exactly the stored flag. -/
theorem c8_admin_premium (adminIds : List Int) (db : Users) (uid : Int) :
    (uid ∈ adminIds → isPremiumUser adminIds db uid = true) ∧
    (uid ∈ adminIds → ∀ db', isPremiumUser adminIds db uid = isPremiumUser adminIds db' uid) ∧
    (uid ∉ adminIds → isPremiumUser adminIds db uid = storedPremiumFlag db uid) := by
  refine ⟨fun h => ?_, fun h db' => ?_, fun h => ?_⟩
  · simp [isPremiumUser, h]
  · simp [isPremiumUser, h]
  · simp [isPremiumUser, h]

/-- C8 (witness): admin id 42 is premium with an absent row, and with a row
whose stored flag is false; non-admin id 7 reads the stored flag. -/
theorem c8_witness :
    ((42 : Int) ∈ [(42 : Int)] ∧ isPremiumUser [42] emptyUsers 42 = true) ∧
    isPremiumUser [42] (setPremiumStatus (registerUser emptyUsers 42 none none).1 42 false).1
      42 = true ∧
    ((7 : Int) ∉ [(42 : Int)] ∧ isPremiumUser [42] emptyUsers 7 = storedPremiumFlag emptyUsers 7) := by
  refine ⟨⟨by decide, (c8_admin_premium [42] emptyUsers 42).1 (by decide)⟩, ?_, ?_⟩
  · exact (c8_admin_premium [42]
      (setPremiumStatus (registerUser emptyUsers 42 none none).1 42 false).1 42).1 (by decide)
  · exact ⟨by decide, (c8_admin_premium [42] emptyUsers 7).2.2 (by decide)⟩

/-- C10: `removeUserSession` only flips the active flag (the row survives),
and a subsequent `storeSession` replaces the whole row, whose `is_active`
default `1` reactivates it: the session reads back as the new blob. -/
theorem c10_session_reactivation (db : Sessions) (uid : Int) (blob : List Nat)
    (phone : Option String) :
    ((removeUserSession db uid).1 uid = (db uid).map (fun r => { r with isActive := false })) ∧
    hasSession (storeSession (removeUserSession db uid).1 uid blob phone).1 uid = true ∧
    getSession (storeSession (removeUserSession db uid).1 uid blob phone).1 uid = some blob := by
  refine ⟨?_, ?_, ?_⟩
  · simp [removeUserSession]
  · simp [hasSession, getSession, storeSession]
  · simp [getSession, storeSession]

/-! ## Claim C1: the concrete dedup example -/

/-- C1 (counterexample): on `"call +1234567890 or 1234567890"` the extractor
does **not** return the one-element list `["1234567890"]` — the cleaning
substitution removes only hyphens and whitespace, not the leading `+`. -/
theorem c1_counterexample :
    ¬ (extractNumbersStr "call +1234567890 or 1234567890" = ["1234567890"]) := by
  decide

/-- C1 (amended): the extractor returns `["+1234567890", "1234567890"]`: the
plus-prefixed match keeps its `+` after cleaning, so it does not collapse
with the bare match; the bare digits are themselves deduplicated (they are
found twice by the bare-run pattern) into one entry. -/
theorem c1_amended :
    extractNumbersStr "call +1234567890 or 1234567890" = ["+1234567890", "1234567890"] := by
  decide

/-! ## Claim C9: per-user isolation of the state manager -/

theorem applyOp_frame {V : Type} (sm : StateManager V) (a b : Int) (op : SMOp V)
    (hab : b ≠ a) :
    (applyOp sm a op).userStates b = sm.userStates b ∧
    (applyOp sm a op).userContexts b = sm.userContexts b := by
  cases op with
  | setSt st ctx =>
    cases ctx with
    | none => exact ⟨by simp [applyOp, setState, hab], by simp [applyOp, setState]⟩
    | some l =>
      cases l with
      | nil => exact ⟨by simp [applyOp, setState, hab], by simp [applyOp, setState]⟩
      | cons p rest => exact ⟨by simp [applyOp, setState, hab], by simp [applyOp, setState, hab]⟩
  | setCtx k v => exact ⟨rfl, by simp [applyOp, setContext, hab]⟩
  | clearSt => exact ⟨by simp [applyOp, clearState, hab], by simp [applyOp, clearState, hab]⟩
  | clearCtx k =>
    cases hctx : sm.userContexts a with
    | none => simp [applyOp, clearContext, hctx]
    | some bag => exact ⟨by simp [applyOp, clearContext, hctx], by simp [applyOp, clearContext, hctx, hab]⟩

theorem applyOps_frame {V : Type} (sm : StateManager V) (a b : Int) (ops : List (SMOp V))
    (hab : b ≠ a) :
    (applyOps sm a ops).userStates b = sm.userStates b ∧
    (applyOps sm a ops).userContexts b = sm.userContexts b := by
  induction ops generalizing sm with
  | nil => exact ⟨rfl, rfl⟩
  | cons op rest ih =>
    have h1 := applyOp_frame sm a b op hab
    have h2 := ih (applyOp sm a op)
    exact ⟨h2.1.trans h1.1, h2.2.trans h1.2⟩

/-- C9: any sequence of state-manager calls for user `a` is invisible to a
distinct user `b` — `b`'s state, context bag and every context key read the
same before and after — and a user never set reads state `Idle`. -/
theorem c9_state_isolation {V : Type} (sm : StateManager V) (a b : Int)
    (ops : List (SMOp V)) (hab : a ≠ b) :
    (getState (applyOps sm a ops) b = getState sm b ∧
     getContextBag (applyOps sm a ops) b = getContextBag sm b ∧
     (∀ k, getContextVal (applyOps sm a ops) b k = getContextVal sm b k)) ∧
    (∀ u, getState (emptySM V) u = UserState.idle) := by
  have h := applyOps_frame sm a b ops (Ne.symm hab)
  refine ⟨⟨?_, h.2, fun k => ?_⟩, fun u => rfl⟩
  · unfold getState
    rw [h.1]
  · unfold getContextVal
    rw [h.2]

/-- C9 (witness): user 1 runs a full sequence (enter a state with context,
set a key, clear a key, clear state); user 2 observes nothing. -/
theorem c9_witness :
    (1 : Int) ≠ 2 ∧
    (getState (applyOps (emptySM Bool) 1
        [SMOp.setSt UserState.channelSetup (some [("k", true)]),
         SMOp.setCtx "j" false, SMOp.clearCtx (some "k"), SMOp.clearSt]) 2 =
      getState (emptySM Bool) 2 ∧
     (∀ k, getContextVal (applyOps (emptySM Bool) 1
        [SMOp.setSt UserState.channelSetup (some [("k", true)]),
         SMOp.setCtx "j" false, SMOp.clearCtx (some "k"), SMOp.clearSt]) 2 k =
      getContextVal (emptySM Bool) 2 k)) := by
  have h := c9_state_isolation (emptySM Bool) 1 2
    [SMOp.setSt UserState.channelSetup (some [("k", true)]),
     SMOp.setCtx "j" false, SMOp.clearCtx (some "k"), SMOp.clearSt] (by decide)
  exact ⟨by decide, h.1.1, h.1.2.2⟩

/-! ## Claims C5 and C6: channel setup -/

/-- The §3 invariant: no two active channels of one user share a channel
reference under case-insensitive comparison. -/
def noDupRefs (store : ChanStore) (uid : Int) : Prop :=
  (getUserChannels store uid).Pairwise (fun c1 c2 => lowerL c1.channelId ≠ lowerL c2.channelId)

theorem getUserChannels_addChannel (store : ChanStore) (uid : Int) (cid cname : List Char) :
    getUserChannels (addChannel store uid cid cname).1 uid =
      getUserChannels store uid ++ [⟨store.nextId, uid, cid, cname, true⟩] := by
  simp [getUserChannels, addChannel, List.filter_append]

/-- C5: in ChannelSetup, a parsed channel whose reference matches an
existing active channel of the same user case-insensitively is rejected:
outcome `duplicate`, store unchanged, active-channel count unchanged; and
for any input whatsoever the step preserves the no-duplicate-reference
invariant. -/
theorem c5_duplicate_channel {V : Type} (store : ChanStore) (sm : StateManager V) (uid : Int)
    (text cid cname : List Char)
    (hparse : parseChannelInput text = some (cid, cname))
    (hlen : cname.length ≤ 100)
    (hdup : ∃ ch ∈ getUserChannels store uid, lowerL ch.channelId = lowerL cid) :
    channelSetupStep store sm uid text = (SetupOutcome.duplicate, store, sm) ∧
    (getUserChannels (channelSetupStep store sm uid text).2.1 uid).length =
      (getUserChannels store uid).length ∧
    (∀ (store' : ChanStore) (text' : List Char), noDupRefs store' uid →
      noDupRefs (channelSetupStep store' sm uid text').2.1 uid) := by
  have hstep : channelSetupStep store sm uid text = (SetupOutcome.duplicate, store, sm) := by
    have hany : (getUserChannels store uid).any
        (fun ch => lowerL ch.channelId == lowerL cid) = true := by
      rw [List.any_eq_true]
      obtain ⟨ch, hch, he⟩ := hdup
      exact ⟨ch, hch, by rw [he]; exact beq_self_eq_true _⟩
    simp [channelSetupStep, hparse, Nat.not_lt.mpr hlen, hany]
  refine ⟨hstep, by rw [hstep], fun store' text' hinv => ?_⟩
  cases hp : parseChannelInput text' with
  | none =>
    simp only [channelSetupStep, hp]
    exact hinv
  | some q =>
    obtain ⟨cid', cname'⟩ := q
    by_cases hl : 100 < cname'.length
    · simp only [channelSetupStep, hp, hl, if_true]
      exact hinv
    · cases hany : (getUserChannels store' uid).any
          (fun ch => lowerL ch.channelId == lowerL cid') with
      | true =>
        simp only [channelSetupStep, hp, hl, if_false, hany, if_true]
        exact hinv
      | false =>
        simp only [channelSetupStep, hp, hl, if_false, hany, Bool.false_eq_true]
        unfold noDupRefs
        rw [getUserChannels_addChannel, List.pairwise_append]
        refine ⟨hinv, List.pairwise_singleton _ _, fun a ha b hb => ?_⟩
        rw [List.mem_singleton] at hb
        subst hb
        rw [List.any_eq_false] at hany
        have := hany a ha
        simpa using this

/-- C5 (witness): user 9 has the active channel `@mychan`; sending
`"@MyChan Foo"` is rejected as a duplicate with the store untouched. -/
theorem c5_witness :
    channelSetupStep (addChannel emptyChans 9 "@mychan".data "My Channel".data).1
      (emptySM Bool) 9 "@MyChan Foo".data =
    (SetupOutcome.duplicate, (addChannel emptyChans 9 "@mychan".data "My Channel".data).1,
      emptySM Bool) :=
  (c5_duplicate_channel (addChannel emptyChans 9 "@mychan".data "My Channel".data).1
    (emptySM Bool) 9 "@MyChan Foo".data "@MyChan".data "Foo".data
    (by decide) (by decide) (by decide)).1

/-- C6: the channel-setup text parser accepts exactly the two documented
formats — `"@mychan My Channel"` yields reference `"@mychan"` and name
`"My Channel"`, `"-1001234567890 Test"` yields reference `"-1001234567890"`
and name `"Test"` (literal `-100` prefix plus at least 10 further digits),
every accepted reference has one of those two shapes — and any non-matching
input (e.g. `"invalid input"`) yields the invalid-format outcome with the
store and the state manager left unchanged. -/
theorem c6_channel_parse {V : Type} :
    parseChannelInput "@mychan My Channel".data = some ("@mychan".data, "My Channel".data) ∧
    parseChannelInput "-1001234567890 Test".data =
      some ("-1001234567890".data, "Test".data) ∧
    parseChannelInput "invalid input".data = none ∧
    (∀ (store : ChanStore) (sm : StateManager V) (uid : Int) (text : List Char),
      parseChannelInput text = none →
      channelSetupStep store sm uid text = (SetupOutcome.invalidFormat, store, sm)) ∧
    (∀ text cid cname, parseChannelInput text = some (cid, cname) →
      (∃ w, cid = '@' :: w ∧ w ≠ [] ∧ w.all isWordChar = true) ∨
      (∃ ds, cid = '-' :: '1' :: '0' :: '0' :: ds ∧ 10 ≤ ds.length ∧
        ds.all Char.isDigit = true)) := by
  refine ⟨by decide, by decide, by decide, fun store sm uid text h => ?_,
    fun text cid cname h => parseChannelInput_shape h⟩
  simp [channelSetupStep, h]

/-! ## Claim C3: global properties of the extractor output -/

theorem cleanNum_noSep (m : List Char) : ∀ c ∈ cleanNum m, isSepChar c = false := by
  intro c hc
  rw [cleanNum, List.mem_filter] at hc
  have := hc.2
  simp only [Bool.not_eq_true'] at this
  exact this

theorem countP_digits_of_all {m : List Char} (h : m.all Char.isDigit = true) :
    m.countP (fun c => c.isDigit) = m.length :=
  List.countP_eq_length.mpr (fun a ha => List.all_eq_true.mp h a ha)

/-- C3: for every input text the extractor output has no duplicates, is the
accumulation of the three pattern runs (in order plus-run, bare-run,
grouped-run) restricted to first occurrences — a sublist of the
accumulation with the same members and first-occurrence order preserved —
and every element is a cleaned match (hyphens/spaces stripped) containing
no separator characters whose digit count is between 10 and 15. -/
theorem c3_extractor_properties (t : List Char) :
    (extractPhoneNumbers t).Nodup ∧
    (extractPhoneNumbers t).Sublist (accumNums t) ∧
    (∀ x, x ∈ extractPhoneNumbers t ↔ x ∈ accumNums t) ∧
    (∀ x y, x ∈ extractPhoneNumbers t → y ∈ extractPhoneNumbers t →
      (firstIdx x (extractPhoneNumbers t) ≤ firstIdx y (extractPhoneNumbers t) ↔
        firstIdx x (accumNums t) ≤ firstIdx y (accumNums t))) ∧
    (∀ x, x ∈ extractPhoneNumbers t →
      (∃ m, (m ∈ fa1 t ∨ m ∈ fa2 t ∨ m ∈ fa3 t) ∧ x = cleanNum m) ∧
      (∀ c ∈ x, isSepChar c = false) ∧
      10 ≤ x.countP (fun c => c.isDigit) ∧ x.countP (fun c => c.isDigit) ≤ 15) := by
  refine ⟨nodup_dedupSeen [] _, sublist_dedupSeen [] _, fun x => ?_, fun x y hx hy => ?_,
    fun x hx => ?_⟩
  · rw [extractPhoneNumbers, mem_dedupSeen]
    simp
  · exact firstIdx_dedupSeen [] _ x y hx hy
  · have hx' : x ∈ accumNums t := ((mem_dedupSeen [] _ x).mp hx).1
    rw [accumNums, List.mem_append, List.mem_append] at hx'
    rcases hx' with (h1 | h2) | h3
    · obtain ⟨m, hm, hxm, hlo, hhi⟩ := mem_accumFrom.mp h1
      obtain ⟨ds, hds, hall, hlo', hhi'⟩ := fa1Go_shape t 0 m hm
      have hnosep : ∀ c ∈ m, isSepChar c = false := by
        intro c hc
        rw [hds] at hc
        rcases List.mem_cons.mp hc with h | h
        · subst h; decide
        · exact all_digit_noSep hall c h
      have hxm' : x = m := by rw [hxm, cleanNum_of_noSep hnosep]
      refine ⟨⟨m, Or.inl hm, hxm⟩, hxm ▸ cleanNum_noSep m, ?_, ?_⟩
      · rw [hxm', hds, List.countP_cons]
        have : ('+' : Char).isDigit = false := by decide
        rw [countP_digits_of_all hall]
        simp [this]
        omega
      · rw [hxm', hds, List.countP_cons]
        have hplus : ('+' : Char).isDigit = false := by decide
        rw [countP_digits_of_all hall]
        simp [hplus]
        have : ds.length ≤ 14 := by
          have := hxm' ▸ hhi
          rw [hds] at this
          simpa using this
        omega
    · obtain ⟨m, hm, hxm, hlo, hhi⟩ := mem_accumFrom.mp h2
      obtain ⟨hall, hlo', hhi'⟩ := fa2Go_shape t 0 m hm
      have hxm' : x = m := by rw [hxm, cleanNum_of_noSep (all_digit_noSep hall)]
      refine ⟨⟨m, Or.inr (Or.inl hm), hxm⟩, hxm ▸ cleanNum_noSep m, ?_, ?_⟩
      · rw [hxm', countP_digits_of_all hall]
        exact hlo'
      · rw [hxm', countP_digits_of_all hall]
        exact hhi'
    · obtain ⟨m, hm, hxm, hlo, hhi⟩ := mem_accumFrom.mp h3
      have hall := fa3Go_shape t 0 m hm
      have hxdig : x.all Char.isDigit = true := hxm ▸ cleanNum_all_digit hall
      refine ⟨⟨m, Or.inr (Or.inr hm), hxm⟩, hxm ▸ cleanNum_noSep m, ?_, ?_⟩
      · rw [countP_digits_of_all hxdig]
        exact hlo
      · rw [countP_digits_of_all hxdig]
        exact hhi

/-- C3 (witness): concrete instantiation on `"call 1234567890 or
1-234-567-8900"` — the output is duplicate-free and its first element is a
cleaned all-digit match of digit count within bounds. -/
theorem c3_witness :
    (extractPhoneNumbers "call 1234567890 or 1-234-567-8900".data).Nodup ∧
    ("1234567890".data ∈ extractPhoneNumbers "call 1234567890 or 1-234-567-8900".data ↔
      "1234567890".data ∈ accumNums "call 1234567890 or 1-234-567-8900".data) ∧
    (∀ c ∈ ("12345678900".data : List Char), isSepChar c = false) ∧
    10 ≤ ("12345678900".data : List Char).countP (fun c => c.isDigit) := by
  have h := c3_extractor_properties "call 1234567890 or 1-234-567-8900".data
  have hmem : "12345678900".data ∈
      extractPhoneNumbers "call 1234567890 or 1-234-567-8900".data := by decide
  exact ⟨h.1, h.2.2.1 "1234567890".data, (h.2.2.2.2 _ hmem).2.1, (h.2.2.2.2 _ hmem).2.2.1⟩

/-! ## Claim C4: idempotence on the comma-joined output -/

/-- C4: for every input text, re-running the extractor on the comma-join of
its own output yields the same set of numbers: membership in the two
outputs coincides. -/
theorem c4_idempotent (t x : List Char) :
    x ∈ extractPhoneNumbers (joinComma (extractPhoneNumbers t)) ↔
      x ∈ extractPhoneNumbers t := by
  have hgood : ∀ e ∈ extractPhoneNumbers t, PlusShape e ∨ DigitShape e :=
    fun e he => shape_extract he
  have h1 := fa1_joinComma hgood
  have h2 := fa2_joinComma hgood
  have h3 := fa3_joinComma hgood
  have hfilterOk : ∀ y ∈ (extractPhoneNumbers t).filter isPlusElem,
      (∀ c ∈ y, isSepChar c = false) ∧ 10 ≤ y.length ∧ y.length ≤ 15 := by
    intro y hy
    have hy' := (List.mem_filter.mp hy).1
    refine ⟨good_noSep (hgood y hy'), ?_⟩
    rcases hgood y hy' with ⟨ds, rfl, _, h10, h14⟩ | ⟨_, h10, h15⟩
    · rw [List.length_cons]
      omega
    · exact ⟨h10, h15⟩
  have hmapOk : ∀ y ∈ (extractPhoneNumbers t).map digitPart,
      (∀ c ∈ y, isSepChar c = false) ∧ 10 ≤ y.length ∧ y.length ≤ 15 := by
    intro y hy
    rw [List.mem_map] at hy
    obtain ⟨e, he, hde⟩ := hy
    rcases hgood e he with ⟨ds, rfl, hall, h10, h14⟩ | hdig
    · have : digitPart ('+' :: ds) = ds := by simp [digitPart, isPlusElem]
      rw [this] at hde
      subst hde
      exact ⟨all_digit_noSep hall, h10, by omega⟩
    · have : digitPart e = e := by simp [digitPart, isPlusElem_false_of_digit hdig]
      rw [this] at hde
      subst hde
      exact ⟨good_noSep (Or.inr hdig), hdig.2.1, hdig.2.2⟩
  have hacc : accumNums (joinComma (extractPhoneNumbers t)) =
      (extractPhoneNumbers t).filter isPlusElem ++ (extractPhoneNumbers t).map digitPart := by
    rw [accumNums, h1, h2, h3, accumFrom_eq_self hfilterOk, accumFrom_eq_self hmapOk]
    simp [accumFrom]
  constructor
  · intro hx
    have hx' := ((mem_dedupSeen [] _ x).mp hx).1
    rw [hacc, List.mem_append] at hx'
    rcases hx' with hf | hm
    · exact (List.mem_filter.mp hf).1
    · rw [List.mem_map] at hm
      obtain ⟨e, he, hde⟩ := hm
      rcases hgood e he with ⟨ds, rfl, _, _, _⟩ | hdig
      · have : digitPart ('+' :: ds) = ds := by simp [digitPart, isPlusElem]
        rw [this] at hde
        subst hde
        exact bare_of_plus_mem he
      · have : digitPart e = e := by simp [digitPart, isPlusElem_false_of_digit hdig]
        rw [this] at hde
        subst hde
        exact he
  · intro hx
    rw [extractPhoneNumbers, mem_dedupSeen, hacc, List.mem_append]
    refine ⟨?_, by simp⟩
    by_cases hp : isPlusElem x
    · exact Or.inl (List.mem_filter.mpr ⟨hx, hp⟩)
    · refine Or.inr (List.mem_map.mpr ⟨x, hx, ?_⟩)
      simp [digitPart, hp]

/-- C4 (witness): concrete instantiation — the bare number survives
re-extraction of the joined output of `"+1234567890 foo"`, and a value
absent from the first output is absent from the re-extraction. -/
theorem c4_witness :
    ("1234567890".data ∈
      extractPhoneNumbers (joinComma (extractPhoneNumbers "+1234567890 foo".data))) ∧
    ¬ ("9999999999".data ∈
      extractPhoneNumbers (joinComma (extractPhoneNumbers "+1234567890 foo".data))) := by
  constructor
  · exact (c4_idempotent "+1234567890 foo".data "1234567890".data).mpr (by decide)
  · intro hmem
    exact absurd ((c4_idempotent "+1234567890 foo".data "9999999999".data).mp hmem)
      (by decide)

/-- C6 (witness): the invalid-input branch applied concretely — store and
state survive `"invalid input"` untouched. -/
theorem c6_witness :
    channelSetupStep emptyChans (emptySM Bool) 5 "invalid input".data =
      (SetupOutcome.invalidFormat, emptyChans, emptySM Bool) :=
  (@c6_channel_parse Bool).2.2.2.1 emptyChans (emptySM Bool) 5 "invalid input".data
    (by decide)

end Toolkit
